import Mathlib

/-!
# Verification of the wPINQ weighted-dataflow core

Shallow embedding of the weighted-collection operators of the wPINQ
repository (`src/lib.rs`, `src/operators/*.rs`, `src/analyses/degrees.rs`,
`src/merge_sort.rs`) together with proofs and refutations of the spec's
claims about them.

Machine integers (`i64`) are modelled as `Int`; Rust's `/` on `i64`
truncates toward zero and is therefore modelled by `Int.tdiv`.
-/

namespace WPINQ

variable {T : Type} [LinearOrder T]

/-- The weighted-multiset denotation of a list of `(datum, weight)` pairs:
the total weight attached to datum `d`. -/
def wOf (d : T) (l : List (T × Int)) : Int :=
  ((l.filter (fun p => p.1 = d)).map (fun p => p.2)).sum

/-- `list.sort_unstable_by(|x,y| x.0.cmp(&y.0))` from `consolidate` in
`src/lib.rs`.  Any sort that orders by the datum gives the same consolidated
output, since equal-datum weights are summed immediately afterwards; we use
a merge sort keyed on the datum. -/
def sortByKey (l : List (T × Int)) : List (T × Int) :=
  l.mergeSort (fun x y => x.1 ≤ y.1)

/-- The accumulation pass of `consolidate` in `src/lib.rs`: for each index,
if the previous pair has the same datum, add its weight into the current pair
and zero the previous one. -/
def accumulate : List (T × Int) → List (T × Int)
  | (d1, w1) :: (d2, w2) :: rest =>
    if d1 = d2 then (d1, 0) :: accumulate ((d2, w2 + w1) :: rest)
    else (d1, w1) :: accumulate ((d2, w2) :: rest)
  | l => l
termination_by l => l.length
decreasing_by all_goals simp

/-- `consolidate` from `src/lib.rs`: sort by datum, sum equal-datum runs into
the last occurrence, then `retain(|x| x.1 != 0)`. -/
def consolidate (l : List (T × Int)) : List (T × Int) :=
  (accumulate (sortByKey l)).filter (fun p => p.2 ≠ 0)

theorem wOf_nil (d : T) : wOf d ([] : List (T × Int)) = 0 := rfl

theorem wOf_cons (d a : T) (b : Int) (t : List (T × Int)) :
    wOf d ((a, b) :: t) = (if a = d then b else 0) + wOf d t := by
  by_cases h : a = d <;> simp [wOf, h]

theorem wOf_perm {l l' : List (T × Int)} (h : l.Perm l') (d : T) :
    wOf d l = wOf d l' :=
  ((h.filter _).map _).sum_eq

theorem wOf_sortByKey (d : T) (l : List (T × Int)) :
    wOf d (sortByKey l) = wOf d l :=
  wOf_perm (l.mergeSort_perm _) d

theorem wOf_append (d : T) (l1 l2 : List (T × Int)) :
    wOf d (l1 ++ l2) = wOf d l1 + wOf d l2 := by
  simp [wOf]

theorem wOf_eq_zero_of_not_mem {d : T} {l : List (T × Int)}
    (h : ∀ p ∈ l, p.1 ≠ d) : wOf d l = 0 := by
  induction l with
  | nil => rfl
  | cons a t ih =>
    obtain ⟨a1, a2⟩ := a
    rw [wOf_cons]
    have h1 : a1 ≠ d := h (a1, a2) (List.mem_cons_self _ _)
    rw [if_neg h1, ih (fun p hp => h p (List.mem_cons_of_mem _ hp)), add_zero]

theorem accumulate_eq_self {l : List (T × Int)}
    (h : ∀ (d1 : T) (w1 : Int) (d2 : T) (w2 : Int) (rest : List (T × Int)),
      l = (d1, w1) :: (d2, w2) :: rest → False) :
    accumulate l = l := by
  rw [accumulate]
  exact h

theorem keys_accumulate (l : List (T × Int)) :
    (accumulate l).map Prod.fst = l.map Prod.fst := by
  induction l using accumulate.induct with
  | case1 w1 d2 w2 rest ih =>
    rw [accumulate, if_pos rfl]
    simpa using ih
  | case2 d1 w1 d2 w2 rest hne ih =>
    rw [accumulate, if_neg hne]
    simpa using ih
  | case3 l h => rw [accumulate_eq_self h]

theorem wOf_accumulate (d : T) (l : List (T × Int)) :
    wOf d (accumulate l) = wOf d l := by
  induction l using accumulate.induct with
  | case1 w1 d2 w2 rest ih =>
    rw [accumulate, if_pos rfl, wOf_cons, ih, wOf_cons, wOf_cons, wOf_cons]
    by_cases h : d2 = d
    · simp [h]
      ring
    · simp [h]
  | case2 d1 w1 d2 w2 rest hne ih =>
    rw [accumulate, if_neg hne, wOf_cons, ih, wOf_cons, wOf_cons, wOf_cons]
  | case3 l h => rw [accumulate_eq_self h]

theorem mem_accumulate_key {p : T × Int} {l : List (T × Int)}
    (h : p ∈ accumulate l) : p.1 ∈ l.map Prod.fst := by
  rw [← keys_accumulate]
  exact List.mem_map_of_mem Prod.fst h

/-- Keys of a key-sorted list stay weakly sorted after accumulation, and
filtering out zero weights then leaves strictly increasing keys. -/
theorem accumulate_filter_pairwise :
    ∀ l : List (T × Int), l.Pairwise (fun x y => x.1 ≤ y.1) →
      ((accumulate l).filter (fun p => p.2 ≠ 0)).Pairwise (fun x y => x.1 < y.1) := by
  intro l
  induction l using accumulate.induct with
  | case1 w1 d2 w2 rest ih =>
    intro hp
    rw [accumulate, if_pos rfl]
    rw [List.pairwise_cons] at hp
    obtain ⟨-, hp2⟩ := hp
    rw [List.pairwise_cons] at hp2
    obtain ⟨hd2, hrest⟩ := hp2
    have hz : ((d2, (0 : Int)) :: accumulate ((d2, w2 + w1) :: rest)).filter
        (fun p => p.2 ≠ 0) = (accumulate ((d2, w2 + w1) :: rest)).filter
        (fun p => p.2 ≠ 0) := by simp
    rw [hz]
    exact ih (List.pairwise_cons.2 ⟨hd2, hrest⟩)
  | case2 d1 w1 d2 w2 rest hne ih =>
    intro hp
    rw [accumulate, if_neg hne]
    rw [List.pairwise_cons] at hp
    obtain ⟨hd1, hp2⟩ := hp
    have hp2' : ((d2, w2) :: rest).Pairwise (fun x y => x.1 ≤ y.1) := hp2
    have htail := ih hp2'
    by_cases hw : w1 = 0
    · subst hw
      simpa using htail
    · have hstep : ((d1, w1) :: accumulate ((d2, w2) :: rest)).filter
          (fun p => p.2 ≠ 0) = (d1, w1) :: (accumulate ((d2, w2) :: rest)).filter
          (fun p => p.2 ≠ 0) := by
        simp [hw]
      rw [hstep]
      refine List.pairwise_cons.2 ⟨?_, htail⟩
      intro q hq
      have hq1 : q.1 ∈ ((d2, w2) :: rest).map Prod.fst :=
        mem_accumulate_key (List.mem_of_mem_filter hq)
      have hd12 : d1 < d2 :=
        lt_of_le_of_ne (hd1 (d2, w2) (List.mem_cons_self _ _)) hne
      rcases List.mem_map.1 hq1 with ⟨r, hr, hr1⟩
      rcases List.mem_cons.1 hr with hr | hr
      · rw [← hr1, hr]
        exact hd12
      · rw [← hr1]
        have : d2 ≤ r.1 := by
          rw [List.pairwise_cons] at hp2'
          exact hp2'.1 r hr
        exact lt_of_lt_of_le hd12 this
  | case3 l h =>
    intro _
    rw [accumulate_eq_self h]
    match l, h with
    | [], _ => simp
    | [a], _ =>
      exact (List.pairwise_filter).2 (List.pairwise_singleton _ _)
    | (a :: b :: r), h => exact absurd (h a.1 a.2 b.1 b.2 r (by simp)) not_false

theorem sortByKey_pairwise (l : List (T × Int)) :
    (sortByKey l).Pairwise (fun x y : T × Int => x.1 ≤ y.1) := by
  have h := @List.sorted_mergeSort (T × Int) (fun x y : T × Int => decide (x.1 ≤ y.1))
    (fun a b c hab hbc => by
      simp only [decide_eq_true_eq] at *
      exact le_trans hab hbc)
    (fun a b => by
      simp only [Bool.or_eq_true, decide_eq_true_eq]
      exact le_total a.1 b.1) l
  exact h.imp (fun hab => of_decide_eq_true hab)

theorem wOf_of_pairwise {m : List (T × Int)} {p : T × Int}
    (hm : m.Pairwise (fun x y => x.1 < y.1)) (hp : p ∈ m) :
    wOf p.1 m = p.2 := by
  induction m with
  | nil => cases hp
  | cons a t ih =>
    obtain ⟨a1, a2⟩ := a
    rw [List.pairwise_cons] at hm
    obtain ⟨ha, ht⟩ := hm
    rcases List.mem_cons.1 hp with heq | hmem
    · subst heq
      show wOf a1 ((a1, a2) :: t) = a2
      have h0 : wOf a1 t = 0 :=
        wOf_eq_zero_of_not_mem (fun q hq => ne_of_gt (ha q hq))
      rw [wOf_cons, if_pos rfl, h0, add_zero]
    · rw [wOf_cons]
      have : a1 ≠ p.1 := ne_of_lt (ha p hmem)
      rw [if_neg this, ih ht hmem, zero_add]

theorem wOf_filter_nonzero (d : T) (l : List (T × Int)) :
    wOf d (l.filter (fun p => p.2 ≠ 0)) = wOf d l := by
  induction l with
  | nil => rfl
  | cons a t ih =>
    obtain ⟨a1, a2⟩ := a
    by_cases h : a2 = 0
    · subst h
      have : ((a1, (0 : Int)) :: t).filter (fun p => p.2 ≠ 0) =
          t.filter (fun p => p.2 ≠ 0) := by simp
      rw [this, ih, wOf_cons]
      by_cases h1 : a1 = d <;> simp [h1]
    · have : ((a1, a2) :: t).filter (fun p => p.2 ≠ 0) =
          (a1, a2) :: t.filter (fun p => p.2 ≠ 0) := by simp [h]
      rw [this, wOf_cons, wOf_cons, ih]

theorem consolidate_pairwise (l : List (T × Int)) :
    (consolidate l).Pairwise (fun x y => x.1 < y.1) :=
  accumulate_filter_pairwise (sortByKey l) (sortByKey_pairwise l)

theorem consolidate_nonzero {l : List (T × Int)} {p : T × Int}
    (hp : p ∈ consolidate l) : p.2 ≠ 0 := by
  have := List.of_mem_filter hp
  simpa using this

theorem wOf_consolidate (d : T) (l : List (T × Int)) :
    wOf d (consolidate l) = wOf d l := by
  rw [consolidate, wOf_filter_nonzero, wOf_accumulate, wOf_sortByKey]

/-- Two strictly key-sorted zero-free lists with the same weighted-multiset
denotation are equal. -/
theorem consolidated_canonical :
    ∀ (m1 m2 : List (T × Int)),
      m1.Pairwise (fun x y => x.1 < y.1) → m2.Pairwise (fun x y => x.1 < y.1) →
      (∀ p ∈ m1, p.2 ≠ 0) → (∀ p ∈ m2, p.2 ≠ 0) →
      (∀ d, wOf d m1 = wOf d m2) → m1 = m2 := by
  intro m1
  induction m1 with
  | nil =>
    intro m2 _ h2 _ hz2 hw
    cases m2 with
    | nil => rfl
    | cons b t2 =>
      exfalso
      have hb := hw b.1
      rw [wOf_nil, wOf_of_pairwise h2 (List.mem_cons_self _ _)] at hb
      exact hz2 b (List.mem_cons_self _ _) hb.symm
  | cons a t1 ih =>
    intro m2 h1 h2 hz1 hz2 hw
    cases m2 with
    | nil =>
      exfalso
      have ha := hw a.1
      rw [wOf_nil, wOf_of_pairwise h1 (List.mem_cons_self _ _)] at ha
      exact hz1 a (List.mem_cons_self _ _) ha
    | cons b t2 =>
      rw [List.pairwise_cons] at h1 h2
      obtain ⟨ha1, ht1⟩ := h1
      obtain ⟨hb2, ht2⟩ := h2
      -- the two head keys must be equal
      have hkey : a.1 = b.1 := by
        by_contra hne
        rcases lt_or_gt_of_ne hne with hlt | hgt
        · have h := hw a.1
          rw [wOf_of_pairwise (List.pairwise_cons.2 ⟨ha1, ht1⟩)
            (List.mem_cons_self _ _)] at h
          have : wOf a.1 (b :: t2) = 0 := by
            refine wOf_eq_zero_of_not_mem ?_
            intro q hq
            rcases List.mem_cons.1 hq with hq | hq
            · subst hq
              exact (ne_of_gt hlt)
            · exact ne_of_gt (lt_trans hlt (hb2 q hq))
          rw [this] at h
          exact hz1 a (List.mem_cons_self _ _) h
        · have h := hw b.1
          rw [wOf_of_pairwise (List.pairwise_cons.2 ⟨hb2, ht2⟩)
            (List.mem_cons_self _ _)] at h
          have : wOf b.1 (a :: t1) = 0 := by
            refine wOf_eq_zero_of_not_mem ?_
            intro q hq
            rcases List.mem_cons.1 hq with hq | hq
            · subst hq
              exact (ne_of_gt hgt)
            · exact ne_of_gt (lt_trans hgt (ha1 q hq))
          rw [this] at h
          exact hz2 b (List.mem_cons_self _ _) h.symm
      -- the two head weights must be equal
      have hwt : a.2 = b.2 := by
        have h := hw a.1
        rw [wOf_of_pairwise (List.pairwise_cons.2 ⟨ha1, ht1⟩)
          (List.mem_cons_self _ _), hkey,
          wOf_of_pairwise (List.pairwise_cons.2 ⟨hb2, ht2⟩)
          (List.mem_cons_self _ _)] at h
        exact h
      have htl : t1 = t2 := by
        refine ih t2 ht1 ht2 (fun p hp => hz1 p (List.mem_cons_of_mem _ hp))
          (fun p hp => hz2 p (List.mem_cons_of_mem _ hp)) ?_
        intro d
        have h := hw d
        obtain ⟨a1, a2⟩ := a
        obtain ⟨b1, b2⟩ := b
        simp only at hkey hwt
        subst hkey
        subst hwt
        rw [wOf_cons, wOf_cons] at h
        omega
      have hab : a = b := Prod.ext hkey hwt
      rw [hab, htl]

/-- **C10.** `consolidate` (src/lib.rs:222-231) leaves the vector sorted by
datum with each datum at most once, each remaining weight equal to the sum of
that datum's input weights, no zero weights, absent data for zero sums, and
preserves the weighted-multiset denotation. -/
theorem consolidate_spec (l : List (T × Int)) :
    (consolidate l).Pairwise (fun x y => x.1 < y.1)
    ∧ (∀ p ∈ consolidate l, p.2 ≠ 0)
    ∧ (∀ p ∈ consolidate l, p.2 = wOf p.1 l)
    ∧ (∀ d, wOf d (consolidate l) = wOf d l)
    ∧ (∀ d, wOf d l = 0 → ∀ p ∈ consolidate l, p.1 ≠ d) := by
  refine ⟨consolidate_pairwise l, fun p hp => consolidate_nonzero hp, ?_, ?_, ?_⟩
  · intro p hp
    rw [← wOf_consolidate p.1 l]
    exact (wOf_of_pairwise (consolidate_pairwise l) hp).symm
  · exact fun d => wOf_consolidate d l
  · intro d hd p hp hpd
    apply consolidate_nonzero hp
    rw [← hpd] at hd
    rw [← wOf_consolidate p.1 l] at hd
    exact wOf_of_pairwise (consolidate_pairwise l) hp ▸ hd

/-! ## Truncating division

Rust's `/` on `i64` rounds toward zero; in Lean that is `Int.tdiv`.
`truncQuot` is the spec-side description "quotient rounded toward zero":
the magnitude is the floored quotient of the magnitudes, the sign that of
the dividend. -/

/-- Quotient of `a` by `n` rounded toward zero, written from the words of the
spec rather than from the source. -/
def truncQuot (a n : Int) : Int :=
  if 0 ≤ a then ((a.natAbs / n.natAbs : Nat) : Int)
  else -((a.natAbs / n.natAbs : Nat) : Int)

theorem tdiv_eq_truncQuot {a n : Int} (h : 0 < n) : a.tdiv n = truncQuot a n := by
  rcases a with m | m <;> rcases n with k | k
  · simp [Int.tdiv, truncQuot]
  · exact absurd h (not_lt.2 (le_of_lt (Int.negSucc_lt_zero k)))
  · rw [truncQuot, if_neg (not_le.2 (Int.negSucc_lt_zero m))]
    simp [Int.tdiv, Int.natAbs_negSucc, Int.natAbs_ofNat]
  · exact absurd h (not_lt.2 (le_of_lt (Int.negSucc_lt_zero k)))

/-! ## `flat_map` (src/operators/flat_map.rs)

Per input record `(d, w)` the operator materialises `L = f(d)`, takes its
length `n`, and emits `(L[i], w / n)` for each element, with Rust's
truncating division; when `n = 0` the loop body never runs and no division
happens. -/

/-- The records emitted by `flat_map` for one input record with materialised
list `L` and weight `w` (src/operators/flat_map.rs:29-35). -/
def flat_map_record {E : Type} (L : List E) (w : Int) : List (E × Int) :=
  let n : Int := L.length
  L.map (fun e => (e, w.tdiv n))

/-- **C6.** `flat_map` emits nothing for an empty materialised list (without
faulting), and otherwise emits one record per list element carrying the
input weight divided by the length, rounded toward zero. -/
theorem flat_map_record_spec {E : Type} (L : List E) (w : Int) :
    (L.length = 0 → flat_map_record L w = [])
    ∧ (0 < L.length →
        flat_map_record L w = L.map (fun e => (e, truncQuot w (L.length : Int)))) := by
  constructor
  · intro h
    rw [List.length_eq_zero] at h
    subst h
    rfl
  · intro h
    unfold flat_map_record
    have hpos : (0 : Int) < (L.length : Int) := by exact_mod_cast h
    simp only [tdiv_eq_truncQuot hpos]

theorem flat_map_record_spec_witness :
    0 < ([10, 20, 30] : List Nat).length ∧
      flat_map_record ([10, 20, 30] : List Nat) (10 : Int) =
        [(10, 3), (20, 3), (30, 3)] :=
  ⟨by decide,
    ((flat_map_record_spec ([10, 20, 30] : List Nat) (10 : Int)).2
      (by decide)).trans (by decide)⟩

/-! ## `join` (src/operators/join.rs) -/

/-- Sum of absolute weight values, as the source computes it
(`list.iter().map(|x| x.1.abs()).sum()`). -/
def absSumI {α : Type} (l : List (α × Int)) : Int :=
  (l.map (fun x => |x.2|)).sum

/-- Sum of absolute weight values as a natural number (for bounds). -/
def absSumN {α : Type} (l : List (α × Int)) : Nat :=
  (l.map (fun x => x.2.natAbs)).sum

/-- `join_helper` from src/operators/join.rs:95-109: for every pair of
entries emit the value pair weighted by the product of the weights divided
(Rust truncating division) by the total of all absolute weights. -/
def join_helper {V1 V2 : Type} (list1 : List (V1 × Int)) (list2 : List (V2 × Int)) :
    List ((V1 × V2) × Int) :=
  let total : Int := absSumI list1 + absSumI list2
  list1.flatMap (fun p1 => list2.map (fun p2 => ((p1.1, p2.1), (p1.2 * p2.2).tdiv total)))

theorem absSumI_nonneg {α : Type} (l : List (α × Int)) : 0 ≤ absSumI l := by
  induction l with
  | nil => simp [absSumI]
  | cons a t ih =>
    simp only [absSumI, List.map_cons, List.sum_cons]
    have := abs_nonneg a.2
    simp only [absSumI] at ih
    omega

theorem absSumI_pos {α : Type} {l : List (α × Int)}
    (hne : l ≠ []) (hz : ∀ p ∈ l, p.2 ≠ 0) : 0 < absSumI l := by
  cases l with
  | nil => exact absurd rfl hne
  | cons a t =>
    simp only [absSumI, List.map_cons, List.sum_cons]
    have h1 : 0 < |a.2| := abs_pos.2 (hz a (List.mem_cons_self _ _))
    have h2 : 0 ≤ absSumI t := absSumI_nonneg t
    simp only [absSumI] at h2
    omega

theorem absSumI_eq_natCast {α : Type} (l : List (α × Int)) :
    absSumI l = (absSumN l : Int) := by
  induction l with
  | nil => rfl
  | cons a t ih =>
    simp only [absSumI, absSumN, List.map_cons, List.sum_cons] at *
    rw [ih, Int.abs_eq_natAbs]
    push_cast
    ring

/-- **C3 counterexample.** At the per-key state `L1 = [(0, −1)]`,
`L2 = [(0, 3)]` (total `T = 4`), the code emits weight `tdiv (−3) 4 = 0`,
not the mathematical floor `fdiv (−3) 4 = −1` the claim demands. -/
theorem join_helper_floor_cex :
    join_helper [((0 : Int), (-1 : Int))] [((0 : Int), (3 : Int))] ≠
      [(((0 : Int), (0 : Int)),
        Int.fdiv ((-1) * 3) (|(-1 : Int)| + |(3 : Int)|))] := by decide

/-- **C3 (amended).** For consolidated per-key lists (no zero weights):
a zero total implies both lists are empty and nothing is emitted, and every
emitted pair carries the product of the weights divided by the total with the
quotient rounded toward zero (not floored). -/
theorem join_helper_pairs {V1 V2 : Type} (list1 : List (V1 × Int))
    (list2 : List (V2 × Int))
    (h1 : ∀ p ∈ list1, p.2 ≠ 0) (h2 : ∀ p ∈ list2, p.2 ≠ 0) :
    (absSumI list1 + absSumI list2 = 0 → join_helper list1 list2 = [])
    ∧ join_helper list1 list2 =
        list1.flatMap (fun p1 => list2.map (fun p2 =>
          ((p1.1, p2.1), truncQuot (p1.2 * p2.2) (absSumI list1 + absSumI list2)))) := by
  constructor
  · intro h0
    cases list1 with
    | nil => rfl
    | cons a t =>
      exfalso
      have hp := @absSumI_pos _ (a :: t) (by simp) h1
      have hn := absSumI_nonneg list2
      omega
  · cases list1 with
    | nil => rfl
    | cons a t =>
      cases list2 with
      | nil => simp [join_helper]
      | cons b s =>
        have hpos : 0 < absSumI (a :: t) + absSumI (b :: s) := by
          have hp := @absSumI_pos _ (a :: t) (by simp) h1
          have hn := absSumI_nonneg (b :: s)
          omega
        unfold join_helper
        simp only [tdiv_eq_truncQuot hpos]

theorem join_helper_pairs_witness :
    join_helper [((1 : Int), (3 : Int))] [((2 : Int), (5 : Int))] =
      [(((1 : Int), (2 : Int)),
        truncQuot (3 * 5) (absSumI [((1 : Int), (3 : Int))] + absSumI [((2 : Int), (5 : Int))]))] :=
  ((join_helper_pairs [((1 : Int), (3 : Int))] [((2 : Int), (5 : Int))]
    (by decide) (by decide)).2).trans (by decide)

theorem natAbs_tdiv_eq (a b : Int) : (a.tdiv b).natAbs = a.natAbs / b.natAbs :=
  Int.natAbs_tdiv a b

theorem nat_div_add_div_le (a b n : Nat) : a / n + b / n ≤ (a + b) / n := by
  rcases Nat.eq_zero_or_pos n with h | h
  · simp [h]
  · rw [Nat.le_div_iff_mul_le h, Nat.add_mul]
    exact Nat.add_le_add (Nat.div_mul_le_self a n) (Nat.div_mul_le_self b n)

theorem sum_div_le (xs : List Nat) (n : Nat) :
    (xs.map (fun x => x / n)).sum ≤ xs.sum / n := by
  induction xs with
  | nil => simp
  | cons a t ih =>
    simp only [List.map_cons, List.sum_cons]
    calc a / n + (t.map (fun x => x / n)).sum ≤ a / n + t.sum / n :=
          Nat.add_le_add_left ih _
    _ ≤ (a + t.sum) / n := nat_div_add_div_le _ _ _

theorem absSumN_append {α : Type} (l m : List (α × Int)) :
    absSumN (l ++ m) = absSumN l + absSumN m := by
  simp [absSumN]

theorem absSumN_flatMap {α β : Type} (l : List α) (f : α → List (β × Int)) :
    absSumN (l.flatMap f) = (l.map (fun x => absSumN (f x))).sum := by
  induction l with
  | nil => rfl
  | cons a t ih =>
    simp only [List.flatMap_cons, List.map_cons, List.sum_cons, absSumN_append, ih]

theorem absSumN_map {α β : Type} (l : List α) (f : α → β × Int) :
    absSumN (l.map f) = (l.map (fun x => (f x).2.natAbs)).sum := by
  simp only [absSumN, List.map_map]
  rfl

theorem sum_map_natAbs_mul {β : Type} (w1 : Int) (l2 : List (β × Int)) :
    (l2.map (fun p2 => (w1 * p2.2).natAbs)).sum = w1.natAbs * absSumN l2 := by
  simp only [Int.natAbs_mul, absSumN]
  exact List.sum_map_mul_left _ _ _

theorem sum_map_mul_const {α : Type} (f : α → Nat) (c : Nat) (l : List α) :
    (l.map (fun x => f x * c)).sum = (l.map f).sum * c := by
  induction l with
  | nil => simp
  | cons a t ih =>
    simp only [List.map_cons, List.sum_cons, ih]
    ring

theorem mul_div_total_le_min (A B : Nat) : A * B / (A + B) ≤ min A B := by
  rcases Nat.eq_zero_or_pos (A + B) with h | h
  · obtain ⟨hA0, hB0⟩ := Nat.add_eq_zero.1 h
    simp [hA0, hB0]
  · have hle : A * B ≤ min A B * (A + B) := by
      rcases Nat.le_total A B with hab | hab
      · rw [Nat.min_eq_left hab, Nat.mul_add]
        exact Nat.le_add_left _ _
      · rw [Nat.min_eq_right hab, Nat.mul_add]
        calc A * B = B * A := Nat.mul_comm A B
        _ ≤ B * A + B * B := Nat.le_add_right _ _
    calc A * B / (A + B) ≤ min A B * (A + B) / (A + B) := Nat.div_le_div_right hle
    _ = min A B := Nat.mul_div_cancel _ h

/-- **C7.** For consolidated per-key lists the sum of the absolute values of
all weights produced by the join pairs computation is at most the minimum of
the two sides' absolute-weight totals. -/
theorem join_helper_total_bound {V1 V2 : Type} (list1 : List (V1 × Int))
    (list2 : List (V2 × Int))
    (_h1 : ∀ p ∈ list1, p.2 ≠ 0) (_h2 : ∀ p ∈ list2, p.2 ≠ 0) :
    absSumI (join_helper list1 list2) ≤ min (absSumI list1) (absSumI list2) := by
  rw [absSumI_eq_natCast, absSumI_eq_natCast list1, absSumI_eq_natCast list2,
    ← Nat.cast_min, Nat.cast_le]
  have hTn : (absSumI list1 + absSumI list2).natAbs = absSumN list1 + absSumN list2 := by
    rw [absSumI_eq_natCast, absSumI_eq_natCast, ← Nat.cast_add, Int.natAbs_ofNat]
  have hinner : ∀ p1 : V1 × Int,
      absSumN (list2.map (fun p2 => ((p1.1, p2.1),
        (p1.2 * p2.2).tdiv (absSumI list1 + absSumI list2)))) ≤
      p1.2.natAbs * absSumN list2 / (absSumN list1 + absSumN list2) := by
    intro p1
    have e1 : absSumN (list2.map (fun p2 => ((p1.1, p2.1),
        (p1.2 * p2.2).tdiv (absSumI list1 + absSumI list2)))) =
        ((list2.map (fun p2 => (p1.2 * p2.2).natAbs)).map
          (fun x => x / (absSumN list1 + absSumN list2))).sum := by
      rw [absSumN_map, List.map_map]
      refine congrArg List.sum (List.map_congr_left (fun p2 _ => ?_))
      simp only [Function.comp_apply]
      rw [natAbs_tdiv_eq, hTn]
    rw [e1]
    calc ((list2.map (fun p2 => (p1.2 * p2.2).natAbs)).map
          (fun x => x / (absSumN list1 + absSumN list2))).sum
        ≤ (list2.map (fun p2 => (p1.2 * p2.2).natAbs)).sum /
            (absSumN list1 + absSumN list2) := sum_div_le _ _
    _ = p1.2.natAbs * absSumN list2 / (absSumN list1 + absSumN list2) := by
        rw [sum_map_natAbs_mul]
  unfold join_helper
  rw [absSumN_flatMap]
  calc (list1.map (fun p1 => absSumN (list2.map (fun p2 => ((p1.1, p2.1),
        (p1.2 * p2.2).tdiv (absSumI list1 + absSumI list2)))))).sum
      ≤ (list1.map (fun p1 =>
          p1.2.natAbs * absSumN list2 / (absSumN list1 + absSumN list2))).sum :=
        List.sum_le_sum (fun p1 _ => hinner p1)
  _ = ((list1.map (fun p1 => p1.2.natAbs * absSumN list2)).map
        (fun x => x / (absSumN list1 + absSumN list2))).sum := by
      rw [List.map_map]
      rfl
  _ ≤ (list1.map (fun p1 => p1.2.natAbs * absSumN list2)).sum /
        (absSumN list1 + absSumN list2) := sum_div_le _ _
  _ = absSumN list1 * absSumN list2 / (absSumN list1 + absSumN list2) := by
      rw [sum_map_mul_const (fun p1 : V1 × Int => p1.2.natAbs)]
      rfl
  _ ≤ min (absSumN list1) (absSumN list2) := mul_div_total_le_min _ _

theorem join_helper_total_bound_witness :
    absSumI (join_helper [((1 : Int), (3 : Int))] [((7 : Int), (-5 : Int))]) ≤
      min (absSumI [((1 : Int), (3 : Int))]) (absSumI [((7 : Int), (-5 : Int))]) :=
  join_helper_total_bound _ _ (by decide) (by decide)

/-! ## `min_max` (src/operators/min_max.rs)

One update of the `min_max` operator on the stored per-key pair.  `side2 =
false` is an update arriving on the first input (`entry.0` in the source),
`side2 = true` one on the second input (`entry.1`).  The source initialises
`min_change`/`max_change` to the min/max of the pair before the update and
then subtracts the min/max after the update, emitting each difference when
it is nonzero. -/

/-- Per-update behaviour of `min_max` (src/operators/min_max.rs:43-59 for
input 1, 68-84 for input 2): the returned options are the emissions on the
min and max outputs. -/
def min_max_update (entry : Int × Int) (side2 : Bool) (delta : Int) :
    (Int × Int) × Option Int × Option Int :=
  let minBefore := min entry.1 entry.2
  let maxBefore := max entry.1 entry.2
  let entry' := if side2 then (entry.1, entry.2 + delta) else (entry.1 + delta, entry.2)
  let minChange := minBefore - min entry'.1 entry'.2
  let maxChange := maxBefore - max entry'.1 entry'.2
  (entry',
    (if minChange ≠ 0 then some minChange else none),
    (if maxChange ≠ 0 then some maxChange else none))

/-- **C2 (code bug).** On a fresh key (stored pair `(0, 0)`) an update of
`+3` on the first input makes the maximum go from `0` to `3`, so the claim
(and src/lib.rs's description of `min_max`) requires the emission
`maxAfter − maxBefore = +3` on the max output; the code emits the negation
`−3` (it initialises the change to the old value and subtracts the new). -/
theorem min_max_update_sign_flip :
    min_max_update (0, 0) false 3 = ((3, 0), none, some (-3))
    ∧ max (0 + 3 : Int) 0 - max (0 : Int) 0 = 3
    ∧ (-3 : Int) ≠ 3 := by decide

/-! ## `measure` (src/operators/measure.rs)

`MeasurementState` keeps `measurements: HashMap<D, (i64, i64)>` where an
entry is `(synth_sum, truth_sum + noise)`: it is created as `(0, laplace())`
by `or_insert`, `update_truth` adds to `.1` and `update_synth` adds to `.0`.
The noise draw is modelled by a fixed function `η : D → Int` sampled at
insertion.  The shared `total_error` cell is the `total` field. -/

/-- Measurement state: association table from datum to the Rust pair
`(entry.0, entry.1) = (synth_sum, truth_sum + noise)`, plus the shared
total-error accumulator. -/
structure MState (D : Type) where
  table : List (D × Int × Int)
  total : Int

/-- `HashMap` lookup for the association table. -/
def lookupEntry {D : Type} [DecidableEq D] (d : D) :
    List (D × Int × Int) → Option (Int × Int)
  | [] => none
  | (e, v) :: t => if e = d then some v else lookupEntry d t

/-- Replace the value of the (unique) entry for `d`. -/
def setEntry {D : Type} [DecidableEq D] (d : D) (v : Int × Int) :
    List (D × Int × Int) → List (D × Int × Int)
  | [] => []
  | (e, w) :: t => if e = d then (e, v) :: t else (e, w) :: setEntry d v t

/-- `MeasurementState::update_truth` (src/operators/measure.rs:102-112):
insert `(0, η d)` if absent, subtract the old `|entry.1 − entry.0|` from the
total error, add `delta` to `entry.1`, add the new absolute difference. -/
def update_truth {D : Type} [DecidableEq D] (η : D → Int) (s : MState D)
    (d : D) (delta : Int) : MState D :=
  match lookupEntry d s.table with
  | none =>
    let entry : Int × Int := (0, η d)
    let entry' : Int × Int := (entry.1, entry.2 + delta)
    { table := (d, entry') :: s.table
      total := s.total - |entry.2 - entry.1| + |entry'.2 - entry'.1| }
  | some entry =>
    let entry' : Int × Int := (entry.1, entry.2 + delta)
    { table := setEntry d entry' s.table
      total := s.total - |entry.2 - entry.1| + |entry'.2 - entry'.1| }

/-- `MeasurementState::update_synth` (src/operators/measure.rs:114-124):
same bookkeeping, with `delta` added to `entry.0`. -/
def update_synth {D : Type} [DecidableEq D] (η : D → Int) (s : MState D)
    (d : D) (delta : Int) : MState D :=
  match lookupEntry d s.table with
  | none =>
    let entry : Int × Int := (0, η d)
    let entry' : Int × Int := (entry.1 + delta, entry.2)
    { table := (d, entry') :: s.table
      total := s.total - |entry.2 - entry.1| + |entry'.2 - entry'.1| }
  | some entry =>
    let entry' : Int × Int := (entry.1 + delta, entry.2)
    { table := setEntry d entry' s.table
      total := s.total - |entry.2 - entry.1| + |entry'.2 - entry'.1| }

/-- A sequence of consolidated updates processed by the two measurement
sinks, starting from the empty state with the error accumulator at zero.
`true` marks a truth-side update, `false` a synth-side one. -/
def measure_run {D : Type} [DecidableEq D] (η : D → Int)
    (upds : List (Bool × D × Int)) : MState D :=
  upds.foldl
    (fun s u =>
      if u.1 then update_truth η s u.2.1 u.2.2 else update_synth η s u.2.1 u.2.2)
    ⟨[], 0⟩

/-- The sum the claim asserts for `E`:
`Σ_d |truth_sum(d) + noise(d) − synth_sum(d)|` over the table. -/
def claimSum {D : Type} (table : List (D × Int × Int)) : Int :=
  (table.map (fun e => |e.2.2 - e.2.1|)).sum

/-- The sum the code actually maintains: each element contributes its
absolute error minus the absolute noise it was created with. -/
def errTermSum {D : Type} (η : D → Int) (table : List (D × Int × Int)) : Int :=
  (table.map (fun e => |e.2.2 - e.2.1| - |η e.1|)).sum

theorem errTermSum_setEntry {D : Type} [DecidableEq D] (η : D → Int)
    {d : D} {v : Int × Int} (v' : Int × Int) :
    ∀ {t : List (D × Int × Int)}, lookupEntry d t = some v →
      errTermSum η (setEntry d v' t) =
        errTermSum η t - |v.2 - v.1| + |v'.2 - v'.1| := by
  intro t
  induction t with
  | nil => intro h; cases h
  | cons a s ih =>
    obtain ⟨e, w⟩ := a
    intro h
    rw [lookupEntry] at h
    by_cases he : e = d
    · rw [if_pos he] at h
      injection h with h
      subst h
      rw [setEntry, if_pos he]
      simp only [errTermSum, List.map_cons, List.sum_cons, he]
      ring
    · rw [if_neg he] at h
      rw [setEntry, if_neg he]
      simp only [errTermSum, List.map_cons, List.sum_cons]
      simp only [errTermSum] at ih
      rw [ih h]
      ring

theorem errTermSum_update_truth {D : Type} [DecidableEq D] (η : D → Int)
    (s : MState D) (d : D) (delta : Int)
    (h : s.total = errTermSum η s.table) :
    (update_truth η s d delta).total = errTermSum η (update_truth η s d delta).table := by
  cases hl : lookupEntry d s.table with
  | none =>
    simp only [update_truth, hl, errTermSum, List.map_cons, List.sum_cons, h, sub_zero, zero_add]
    ring
  | some entry =>
    simp only [update_truth, hl]
    rw [errTermSum_setEntry η _ hl, h]

theorem errTermSum_update_synth {D : Type} [DecidableEq D] (η : D → Int)
    (s : MState D) (d : D) (delta : Int)
    (h : s.total = errTermSum η s.table) :
    (update_synth η s d delta).total = errTermSum η (update_synth η s d delta).table := by
  cases hl : lookupEntry d s.table with
  | none =>
    simp only [update_synth, hl, errTermSum, List.map_cons, List.sum_cons, h, sub_zero, zero_add]
    ring
  | some entry =>
    simp only [update_synth, hl]
    rw [errTermSum_setEntry η _ hl, h]

/-- **C1 counterexample.**  With noise fixed at `+7`, pushing `(d, +100)` on
the truth side and then `(d, +107)` on the synth side (so that
`synth_sum = truth_sum + noise` for the only element) leaves the accumulator
at `−7`, while the claim's formula gives `0`: at insertion the code
subtracts `|noise|` without ever having added it. -/
theorem measure_total_cex :
    (measure_run (fun _ : Nat => 7) [(true, 0, 100), (false, 0, 107)]).total ≠
      claimSum ((measure_run (fun _ : Nat => 7) [(true, 0, 100), (false, 0, 107)]).table) := by
  decide

/-- **C1 (amended).**  After any sequence of truth/synth updates processed
from a fresh state, the accumulator equals
`Σ_d (|truth_sum(d) + noise(d) − synth_sum(d)| − |noise(d)|)` over all
inserted elements; under synth convergence this is `−Σ_d |noise(d)|`,
not `0`. -/
theorem measure_total_amended {D : Type} [DecidableEq D] (η : D → Int)
    (upds : List (Bool × D × Int)) :
    (measure_run η upds).total = errTermSum η (measure_run η upds).table := by
  suffices h : ∀ s : MState D, s.total = errTermSum η s.table →
      (upds.foldl (fun s u =>
        if u.1 then update_truth η s u.2.1 u.2.2 else update_synth η s u.2.1 u.2.2) s).total
      = errTermSum η (upds.foldl (fun s u =>
        if u.1 then update_truth η s u.2.1 u.2.2 else update_synth η s u.2.1 u.2.2) s).table by
    exact h ⟨[], 0⟩ rfl
  induction upds with
  | nil => exact fun s hs => hs
  | cons u rest ih =>
    intro s hs
    simp only [List.foldl_cons]
    apply ih
    by_cases hu : u.1
    · simp only [hu, if_true]
      exact errTermSum_update_truth η s u.2.1 u.2.2 hs
    · simp only [hu, if_false]
      exact errTermSum_update_synth η s u.2.1 u.2.2 hs

/-! ## `shave` (src/operators/shave.rs)

The per-update loops of `shave`.  Rust's `/` on `i64` truncates toward
zero, which is what the source uses for `weight / width` and
`(weight - 1) / width`; the spec demands floor division there.  The loops
are modelled with fuel because, as proved below, the decrement loop does
not terminate on some inputs.  An emission `(index, change)` stands for the
source's `((datum, index as usize), change)`; the raw `i64` index is kept
(the source casts it to `usize`). -/

/-- The increment loop `while delta > 0` (src/operators/shave.rs:45-51).
Returns the emissions, the final stored weight and the final delta, or
`none` if `fuel` steps do not finish the loop. -/
def shave_inc (width : Int) (fuel : Nat) (w delta : Int) :
    Option (List (Int × Int) × Int × Int) :=
  if delta > 0 then
    match fuel with
    | 0 => none
    | fuel + 1 =>
      let index := w.tdiv width
      let change := min ((index + 1) * width - w) delta
      match shave_inc width fuel (w + change) (delta - change) with
      | none => none
      | some (ems, st) => some ((index, change) :: ems, st)
  else some ([], w, delta)

/-- The decrement loop `while delta < 0` (src/operators/shave.rs:54-60). -/
def shave_dec (width : Int) (fuel : Nat) (w delta : Int) :
    Option (List (Int × Int) × Int × Int) :=
  if delta < 0 then
    match fuel with
    | 0 => none
    | fuel + 1 =>
      let index := (w - 1).tdiv width
      let change := max (index * width - w) delta
      match shave_dec width fuel (w + change) (delta - change) with
      | none => none
      | some (ems, st) => some ((index, change) :: ems, st)
  else some ([], w, delta)

/-- One consolidated update `(d, delta)` against stored weight `w`: the
increment loop followed by the decrement loop. -/
def shave_update (width : Int) (fuel : Nat) (w delta : Int) :
    Option (List (Int × Int) × Int × Int) :=
  match shave_inc width fuel w delta with
  | none => none
  | some (ems1, w1, delta1) =>
    match shave_dec width fuel w1 delta1 with
    | none => none
    | some (ems2, st) => some (ems1 ++ ems2, st)

/-- **C9 (code bug).**  With width `2` and stored weight `0`, the update
`(d, −1)` makes the decrement loop compute `index = tdiv (−1) 2 = 0` (the
spec demands the floor, `−1`) and hence `change = max (0, −1) = 0`, leaving
the state unchanged: the loop never terminates, whatever the fuel. -/
theorem shave_dec_stuck_width2 : ∀ fuel : Nat, shave_dec 2 fuel 0 (-1) = none := by
  intro fuel
  induction fuel with
  | zero => rfl
  | succ n ih =>
    have key : shave_dec 2 (n + 1) 0 (-1) =
        (match shave_dec 2 n 0 (-1) with
          | none => none
          | some (ems, st) => some (((0 : Int), (0 : Int)) :: ems, st)) := rfl
    rw [key, ih]

/-- The same stuck configuration for width `10` and the update `(d, −5)`
(used for C4): the decrement loop makes no progress from weight `0`. -/
theorem shave_dec_stuck_width10 : ∀ fuel : Nat, shave_dec 10 fuel 0 (-5) = none := by
  intro fuel
  induction fuel with
  | zero => rfl
  | succ n ih =>
    have key : shave_dec 10 (n + 1) 0 (-5) =
        (match shave_dec 10 n 0 (-5) with
          | none => none
          | some (ems, st) => some (((0 : Int), (0 : Int)) :: ems, st)) := rfl
    rw [key, ih]

/-- **C4 (code bug).**  For width `10`, prior stored weight `0` and the
consolidated update `(d, −5)`, the shave update never completes (the
decrement loop is stuck emitting zero-weight slices), so the emitted slices
can never sum to `δ = −5` as the claim requires. -/
theorem shave_update_stuck : ∀ fuel : Nat, shave_update 10 fuel 0 (-5) = none := by
  intro fuel
  have hinc : shave_inc 10 fuel 0 (-5) = some ([], 0, -5) := by
    cases fuel <;> rfl
  rw [shave_update, hinc]
  show (match shave_dec 10 fuel 0 (-5) with
        | none => none
        | some (ems2, st) => some (([] : List (Int × Int)) ++ ems2, st)) = none
  rw [shave_dec_stuck_width10 fuel]

/-! ## `fit_cdf_seq` (src/analyses/degrees.rs)

The grid search is modelled over `ℚ`; the `f64` arithmetic of the claimed
evaluation is exact on the values involved.  The `BinaryHeap` of
`(QueueKey(d), x, y)` pops a greatest tuple under the derived order —
`QueueKey` reverses the comparison on `d`, so the popped tuple has the
smallest distance, ties broken toward larger `x`, then larger `y`; since
that order is total on tuple values, a list together with a deterministic
selection of the maximum models the heap exactly.  The two source loops get
fuel: the Dijkstra loop pops one entry per iteration and every insertion
adds a new grid node (at most `(max_x+1)*(max_y+1)` of them, each pushing at
most two entries), the walk back moves one grid step per iteration; the fuel
passed in `fit_cdf_seq` covers every terminating execution of the source,
and exhaustion — like the source's panics — yields `none`. -/

/-- `x.round() as i64` on `f64`: round half away from zero. -/
def rustRound (q : ℚ) : Int :=
  if 0 ≤ q then ⌊q + 1 / 2⌋ else ⌈q - 1 / 2⌉

/-- Heap priority: `a` wins over `b` when its distance is smaller, with ties
broken by the larger `x`, then the larger `y` (the derived lexicographic
order on `(QueueKey, usize, usize)`). -/
def heapGe (a b : ℚ × Nat × Nat) : Bool :=
  if a.1 < b.1 then true
  else if b.1 < a.1 then false
  else if b.2.1 < a.2.1 then true
  else if a.2.1 < b.2.1 then false
  else decide (b.2.2 ≤ a.2.2)

/-- `BinaryHeap::pop`: remove and return a maximal element. -/
def popMax : List (ℚ × Nat × Nat) → Option ((ℚ × Nat × Nat) × List (ℚ × Nat × Nat))
  | [] => none
  | a :: t =>
    match popMax t with
    | none => some (a, [])
    | some (m, rest) => if heapGe a m then some (a, t) else some (m, a :: rest)

/-- `HashMap::contains_key` on the distance table. -/
def containsKey (dists : List ((Nat × Nat) × ℚ)) (k : Nat × Nat) : Bool :=
  dists.any (fun e => e.1 = k)

/-- `HashMap::get` on the distance table. -/
def lookupDist (dists : List ((Nat × Nat) × ℚ)) (k : Nat × Nat) : Option ℚ :=
  match dists.find? (fun e => e.1 = k) with
  | none => none
  | some e => some e.2

/-- The search loop `while !dists.contains_key(&(max_x, 0))` of
`fit_cdf_seq` (src/analyses/degrees.rs:84-103). -/
def dijkstraLoop (cost : ℚ → ℚ → ℚ) (hor ver : List ℚ) (maxX maxY : Nat) :
    Nat → List (ℚ × Nat × Nat) → List ((Nat × Nat) × ℚ) →
    Option (List ((Nat × Nat) × ℚ))
  | 0, _, _ => none
  | fuel + 1, queue, dists =>
    if containsKey dists (maxX, 0) then some dists
    else
      match popMax queue with
      | none => none
      | some ((d, x, y), rest) =>
        if containsKey dists (x, y) then
          dijkstraLoop cost hor ver maxX maxY fuel rest dists
        else
          let dists' := ((x, y), d) :: dists
          let q1 := if x + 1 ≤ maxX then
              (d + cost (hor.getD x 0) (y : ℚ), x + 1, y) :: rest
            else rest
          let q2 := if 0 < y then
              (d + cost (ver.getD (y - 1) 0) (x : ℚ), x, y - 1) :: q1
            else q1
          dijkstraLoop cost hor ver maxX maxY fuel q2 dists'

/-- The walk back `while current != (0, max_y)`
(src/analyses/degrees.rs:111-145).  Rust's `x - 1` on `usize` is modelled by
truncated `Nat` subtraction; the underflowing lookup at `x = 0` simply
misses, and no claimed evaluation reaches it. -/
def backLoop (cost : ℚ → ℚ → ℚ) (hor ver : List ℚ) (maxY : Nat)
    (dists : List ((Nat × Nat) × ℚ)) :
    Nat → Nat × Nat → List Nat → List Nat → Option (List Nat × List Nat)
  | 0, _, _, _ => none
  | fuel + 1, (x, y), rh, rv =>
    if (x, y) = (0, maxY) then some (rh, rv)
    else
      match lookupDist dists (x - 1, y), lookupDist dists (x, y + 1) with
      | none, none => none
      | some _, none =>
        backLoop cost hor ver maxY dists fuel (x - 1, y) (rh.set (x - 1) y) rv
      | none, some _ =>
        backLoop cost hor ver maxY dists fuel (x, y + 1) rh (rv.set y x)
      | some d1, some d2 =>
        if d1 + cost (hor.getD (x - 1) 0) (y : ℚ) ≤ d2 + cost (ver.getD y 0) (x : ℚ)
        then backLoop cost hor ver maxY dists fuel (x - 1, y) (rh.set (x - 1) y) rv
        else backLoop cost hor ver maxY dists fuel (x, y + 1) rh (rv.set y x)

/-- `fit_cdf_seq` (src/analyses/degrees.rs:56-148).  Empty inputs are the
source's `assert!` panics, modelled as `none`.  `max_x` comes from the
rounded maximum of `vertical`, `max_y` from that of `horizontal`, clamped to
`0`; the result vectors start as `vec![0; max_x]` and `vec![0; max_y]`. -/
def fit_cdf_seq (cost : ℚ → ℚ → ℚ) (horizontal vertical : List ℚ) :
    Option (List Nat × List Nat) :=
  if horizontal = [] ∨ vertical = [] then none
  else
    let maxX := (max (((vertical.map rustRound).max?).getD 0) 0).toNat
    let maxY := (max (((horizontal.map rustRound).max?).getD 0) 0).toNat
    match dijkstraLoop cost horizontal vertical maxX maxY
        (2 * (maxX + 1) * (maxY + 1) + 2) [(0, 0, maxY)] [] with
    | none => none
    | some dists =>
      backLoop cost horizontal vertical maxY dists (maxX + maxY + 1) (maxX, 0)
        (List.replicate maxX 0) (List.replicate maxY 0)

/-- Evaluation of `fit_cdf_seq` on the singleton inputs: the grid is the
single point `(0, 0)` (`max_x = max_y = 0`), the search inserts it and
stops, the walk back is already at its target, and the result vectors
`vec![0; max_x]`, `vec![0; max_y]` are both empty.  The cost function is
never evaluated: no edge leaves the one-point grid. -/
theorem fit_cdf_seq_singleton_aux (cost : ℚ → ℚ → ℚ) :
    fit_cdf_seq cost [0] [0] = some ([], []) := by
  have hr : rustRound (0 : ℚ) = 0 := by
    rw [rustRound, if_pos le_rfl]
    norm_num
  have hmap : (([(0 : ℚ)]).map rustRound) = [(0 : Int)] := by
    rw [show (([(0 : ℚ)]).map rustRound) = [rustRound 0] from rfl, hr]
  have hm : (max (((([(0 : ℚ)]).map rustRound).max?).getD 0) 0).toNat = 0 := by
    rw [hmap]
    rfl
  rw [fit_cdf_seq, if_neg (by simp)]
  simp only [hm]
  rfl

/-- **C5 counterexample.**  On `horizontal = [0]`, `vertical = [0]` the
function returns two *empty* vectors, not `([0], [0])` as claimed. -/
theorem fit_cdf_seq_singleton_cex :
    fit_cdf_seq (fun a b => |a - b|) [0] [0] ≠ some ([0], [0]) := by
  rw [fit_cdf_seq_singleton_aux]
  decide

/-- **C5 (amended).**  For any cost function, `fit_cdf_seq` on the singleton
inputs `horizontal = [0]`, `vertical = [0]` returns the pair of *empty*
vectors `([], [])`. -/
theorem fit_cdf_seq_singleton (cost : ℚ → ℚ → ℚ) :
    fit_cdf_seq cost [0] [0] = some ([], []) :=
  fit_cdf_seq_singleton_aux cost

/-! ## The merge sorter (src/merge_sort.rs)

A *run* is the source's `Vec<Vec<(T, i64)>>`: a front-to-back list of
chunks (`VecQueue` pops from the front).  The `stash` recycles only empty
buffers (`VecQueue::from` zeroes the length before a vector is stashed), so
it carries no data and is not modelled.  The chunk capacity is the source's
`Vec::with_capacity(1024)`; the loop definitions take it as a parameter
`cap`, instantiated with `chunkCap = 1024`. -/

/-- The chunk capacity used throughout `src/merge_sort.rs`. -/
def chunkCap : Nat := 1024

/-- Reference two-pointer merge of two weighted sequences: emit the smaller
head, combine equal heads by adding weights and dropping zero; used to state
what the chunked loops of `merge_by` compute. -/
def flatMerge : List (T × Int) → List (T × Int) → List (T × Int)
  | [], l2 => l2
  | l1, [] => l1
  | (d1, w1) :: t1, (d2, w2) :: t2 =>
    if d1 < d2 then (d1, w1) :: flatMerge t1 ((d2, w2) :: t2)
    else if d2 < d1 then (d2, w2) :: flatMerge ((d1, w1) :: t1) t2
    else if w1 + w2 ≠ 0 then (d1, w1 + w2) :: flatMerge t1 t2
    else flatMerge t1 t2
termination_by l1 l2 => l1.length + l2.length

theorem flatMerge_nil_left (l2 : List (T × Int)) : flatMerge [] l2 = l2 := by
  rw [flatMerge]

theorem flatMerge_nil_right (l1 : List (T × Int)) : flatMerge l1 [] = l1 := by
  cases l1 with
  | nil => rw [flatMerge]
  | cons a t =>
    rw [flatMerge]
    simp

theorem flatMerge_wOf (d : T) (l1 l2 : List (T × Int)) :
    wOf d (flatMerge l1 l2) = wOf d l1 + wOf d l2 := by
  induction l1, l2 using flatMerge.induct with
  | case1 l2 => rw [flatMerge_nil_left, wOf_nil, zero_add]
  | case2 l1 h => rw [flatMerge_nil_right, wOf_nil, add_zero]
  | case3 d1 w1 t1 d2 w2 t2 hlt ih =>
    rw [flatMerge, if_pos hlt]
    simp only [wOf_cons, ih]
    by_cases h1 : d1 = d <;> by_cases h2 : d2 = d <;> simp [h1, h2] <;> try ring
  | case4 d1 w1 t1 d2 w2 t2 hlt hgt ih =>
    rw [flatMerge, if_neg hlt, if_pos hgt]
    simp only [wOf_cons, ih]
    by_cases h1 : d1 = d <;> by_cases h2 : d2 = d <;> simp [h1, h2] <;> try ring
  | case5 d1 w1 t1 d2 w2 t2 hlt hgt hnz ih =>
    have heq : d1 = d2 := le_antisymm (not_lt.1 hgt) (not_lt.1 hlt)
    subst heq
    rw [flatMerge, if_neg hlt, if_neg hgt, if_pos hnz]
    simp only [wOf_cons, ih]
    by_cases h1 : d1 = d <;> (simp [h1]; try ring)
  | case6 d1 w1 t1 d2 w2 t2 hlt hgt hnz ih =>
    have heq : d1 = d2 := le_antisymm (not_lt.1 hgt) (not_lt.1 hlt)
    subst heq
    have hz : w1 + w2 = 0 := not_ne_iff.1 hnz
    rw [flatMerge, if_neg hlt, if_neg hgt, if_neg hnz]
    simp only [wOf_cons, ih]
    by_cases h1 : d1 = d <;> (simp [h1]; try omega)

theorem flatMerge_mem_key {p : T × Int} :
    ∀ {l1 l2 : List (T × Int)}, p ∈ flatMerge l1 l2 →
      p.1 ∈ l1.map Prod.fst ∨ p.1 ∈ l2.map Prod.fst := by
  intro l1 l2
  induction l1, l2 using flatMerge.induct with
  | case1 l2 =>
    rw [flatMerge_nil_left]
    exact fun h => Or.inr (List.mem_map_of_mem Prod.fst h)
  | case2 l1 h =>
    rw [flatMerge_nil_right]
    exact fun h => Or.inl (List.mem_map_of_mem Prod.fst h)
  | case3 d1 w1 t1 d2 w2 t2 hlt ih =>
    rw [flatMerge, if_pos hlt]
    intro hp
    rcases List.mem_cons.1 hp with hp | hp
    · left
      rw [hp]
      simp
    · rcases ih hp with h | h
      · left
        simp only [List.map_cons, List.mem_cons]
        exact Or.inr (by simpa using h)
      · right
        exact h
  | case4 d1 w1 t1 d2 w2 t2 hlt hgt ih =>
    rw [flatMerge, if_neg hlt, if_pos hgt]
    intro hp
    rcases List.mem_cons.1 hp with hp | hp
    · right
      rw [hp]
      simp
    · rcases ih hp with h | h
      · left
        exact h
      · right
        simp only [List.map_cons, List.mem_cons]
        exact Or.inr (by simpa using h)
  | case5 d1 w1 t1 d2 w2 t2 hlt hgt hnz ih =>
    rw [flatMerge, if_neg hlt, if_neg hgt, if_pos hnz]
    intro hp
    rcases List.mem_cons.1 hp with hp | hp
    · left
      rw [hp]
      simp
    · rcases ih hp with h | h
      · left
        simp only [List.map_cons, List.mem_cons]
        exact Or.inr (by simpa using h)
      · right
        simp only [List.map_cons, List.mem_cons]
        exact Or.inr (by simpa using h)
  | case6 d1 w1 t1 d2 w2 t2 hlt hgt hnz ih =>
    rw [flatMerge, if_neg hlt, if_neg hgt, if_neg hnz]
    intro hp
    rcases ih hp with h | h
    · left
      simp only [List.map_cons, List.mem_cons]
      exact Or.inr (by simpa using h)
    · right
      simp only [List.map_cons, List.mem_cons]
      exact Or.inr (by simpa using h)

theorem flatMerge_nonzero :
    ∀ {l1 l2 : List (T × Int)}, (∀ p ∈ l1, p.2 ≠ 0) → (∀ p ∈ l2, p.2 ≠ 0) →
      ∀ p ∈ flatMerge l1 l2, p.2 ≠ 0 := by
  intro l1 l2
  induction l1, l2 using flatMerge.induct with
  | case1 l2 =>
    rw [flatMerge_nil_left]
    exact fun _ h2 => h2
  | case2 l1 h =>
    rw [flatMerge_nil_right]
    exact fun h1 _ => h1
  | case3 d1 w1 t1 d2 w2 t2 hlt ih =>
    rw [flatMerge, if_pos hlt]
    intro h1 h2 p hp
    rcases List.mem_cons.1 hp with hp | hp
    · rw [hp]
      exact h1 (d1, w1) (List.mem_cons_self _ _)
    · exact ih (fun q hq => h1 q (List.mem_cons_of_mem _ hq)) h2 p hp
  | case4 d1 w1 t1 d2 w2 t2 hlt hgt ih =>
    rw [flatMerge, if_neg hlt, if_pos hgt]
    intro h1 h2 p hp
    rcases List.mem_cons.1 hp with hp | hp
    · rw [hp]
      exact h2 (d2, w2) (List.mem_cons_self _ _)
    · exact ih h1 (fun q hq => h2 q (List.mem_cons_of_mem _ hq)) p hp
  | case5 d1 w1 t1 d2 w2 t2 hlt hgt hnz ih =>
    rw [flatMerge, if_neg hlt, if_neg hgt, if_pos hnz]
    intro h1 h2 p hp
    rcases List.mem_cons.1 hp with hp | hp
    · rw [hp]
      exact hnz
    · exact ih (fun q hq => h1 q (List.mem_cons_of_mem _ hq))
        (fun q hq => h2 q (List.mem_cons_of_mem _ hq)) p hp
  | case6 d1 w1 t1 d2 w2 t2 hlt hgt hnz ih =>
    rw [flatMerge, if_neg hlt, if_neg hgt, if_neg hnz]
    intro h1 h2 p hp
    exact ih (fun q hq => h1 q (List.mem_cons_of_mem _ hq))
      (fun q hq => h2 q (List.mem_cons_of_mem _ hq)) p hp

theorem flatMerge_pairwise :
    ∀ {l1 l2 : List (T × Int)},
      l1.Pairwise (fun x y => x.1 < y.1) → l2.Pairwise (fun x y => x.1 < y.1) →
      (flatMerge l1 l2).Pairwise (fun x y => x.1 < y.1) := by
  intro l1 l2
  induction l1, l2 using flatMerge.induct with
  | case1 l2 =>
    rw [flatMerge_nil_left]
    exact fun _ h2 => h2
  | case2 l1 h =>
    rw [flatMerge_nil_right]
    exact fun h1 _ => h1
  | case3 d1 w1 t1 d2 w2 t2 hlt ih =>
    rw [flatMerge, if_pos hlt]
    intro h1 h2
    rw [List.pairwise_cons] at h1
    refine List.pairwise_cons.2 ⟨?_, ih h1.2 h2⟩
    intro q hq
    rcases flatMerge_mem_key hq with h | h
    · rcases List.mem_map.1 h with ⟨r, hr, hr1⟩
      rw [← hr1]
      exact h1.1 r hr
    · rcases List.mem_map.1 h with ⟨r, hr, hr1⟩
      rw [← hr1]
      rcases List.mem_cons.1 hr with hr | hr
      · rw [hr]
        exact hlt
      · rw [List.pairwise_cons] at h2
        exact lt_trans hlt (h2.1 r hr)
  | case4 d1 w1 t1 d2 w2 t2 hlt hgt ih =>
    rw [flatMerge, if_neg hlt, if_pos hgt]
    intro h1 h2
    rw [List.pairwise_cons] at h2
    refine List.pairwise_cons.2 ⟨?_, ih h1 h2.2⟩
    intro q hq
    rcases flatMerge_mem_key hq with h | h
    · rcases List.mem_map.1 h with ⟨r, hr, hr1⟩
      rw [← hr1]
      rcases List.mem_cons.1 hr with hr | hr
      · rw [hr]
        exact hgt
      · rw [List.pairwise_cons] at h1
        exact lt_trans hgt (h1.1 r hr)
    · rcases List.mem_map.1 h with ⟨r, hr, hr1⟩
      rw [← hr1]
      exact h2.1 r hr
  | case5 d1 w1 t1 d2 w2 t2 hlt hgt hnz ih =>
    have heq : d1 = d2 := le_antisymm (not_lt.1 hgt) (not_lt.1 hlt)
    rw [flatMerge, if_neg hlt, if_neg hgt, if_pos hnz]
    intro h1 h2
    rw [List.pairwise_cons] at h1 h2
    refine List.pairwise_cons.2 ⟨?_, ih h1.2 h2.2⟩
    intro q hq
    rcases flatMerge_mem_key hq with h | h
    · rcases List.mem_map.1 h with ⟨r, hr, hr1⟩
      rw [← hr1]
      exact h1.1 r hr
    · rcases List.mem_map.1 h with ⟨r, hr, hr1⟩
      rw [← hr1, heq]
      exact h2.1 r hr
  | case6 d1 w1 t1 d2 w2 t2 hlt hgt hnz ih =>
    have heq : d1 = d2 := le_antisymm (not_lt.1 hgt) (not_lt.1 hlt)
    rw [flatMerge, if_neg hlt, if_neg hgt, if_neg hnz]
    intro h1 h2
    rw [List.pairwise_cons] at h1 h2
    exact ih h1.2 h2.2

/-- The inner loop of `merge_by` (src/merge_sort.rs:156-175): merge while
the current chunk has room and both heads are nonempty; emit the smaller
head, combine equal heads (dropping a zero sum).  Returns
`(result, head1, head2)`. -/
def mergeInner (cap : Nat) (h1 h2 result : List (T × Int)) :
    List (T × Int) × List (T × Int) × List (T × Int) :=
  if result.length < cap then
    match h1, h2 with
    | (d1, w1) :: t1, (d2, w2) :: t2 =>
      if d1 < d2 then mergeInner cap t1 ((d2, w2) :: t2) (result ++ [(d1, w1)])
      else if d2 < d1 then mergeInner cap ((d1, w1) :: t1) t2 (result ++ [(d2, w2)])
      else if w1 + w2 ≠ 0 then mergeInner cap t1 t2 (result ++ [(d1, w1 + w2)])
      else mergeInner cap t1 t2 result
    | _, _ => (result, h1, h2)
  else (result, h1, h2)
termination_by h1.length + h2.length
decreasing_by all_goals (simp only [List.length_cons]; omega)

theorem mergeInner_of_full {cap : Nat} {result : List (T × Int)}
    (h : ¬ result.length < cap) (h1 h2 : List (T × Int)) :
    mergeInner cap h1 h2 result = (result, h1, h2) := by
  rw [mergeInner.eq_def, if_neg h]

theorem mergeInner_spec (cap : Nat) (h1 h2 result ext1 ext2 : List (T × Int)) :
    (mergeInner cap h1 h2 result).1 ++
      flatMerge ((mergeInner cap h1 h2 result).2.1 ++ ext1)
        ((mergeInner cap h1 h2 result).2.2 ++ ext2)
    = result ++ flatMerge (h1 ++ ext1) (h2 ++ ext2) := by
  induction h1, h2, result using @mergeInner.induct T _ cap with
  | case1 result hroom d1 w1 t1 d2 w2 t2 hlt ih =>
    rw [mergeInner, if_pos hroom, if_pos hlt, ih]
    have hstep : flatMerge (((d1, w1) :: t1) ++ ext1) (((d2, w2) :: t2) ++ ext2)
        = (d1, w1) :: flatMerge (t1 ++ ext1) (((d2, w2) :: t2) ++ ext2) := by
      rw [List.cons_append, List.cons_append, flatMerge, if_pos hlt,
        ← List.cons_append]
    rw [hstep, List.append_assoc, List.singleton_append]
  | case2 result hroom d1 w1 t1 d2 w2 t2 hlt hgt ih =>
    rw [mergeInner, if_pos hroom, if_neg hlt, if_pos hgt, ih]
    have hstep : flatMerge (((d1, w1) :: t1) ++ ext1) (((d2, w2) :: t2) ++ ext2)
        = (d2, w2) :: flatMerge (((d1, w1) :: t1) ++ ext1) (t2 ++ ext2) := by
      rw [List.cons_append, List.cons_append, flatMerge, if_neg hlt, if_pos hgt,
        ← List.cons_append]
    rw [hstep, List.append_assoc, List.singleton_append]
  | case3 result hroom d1 w1 t1 d2 w2 t2 hlt hgt hnz ih =>
    rw [mergeInner, if_pos hroom, if_neg hlt, if_neg hgt, if_pos hnz, ih]
    have hstep : flatMerge (((d1, w1) :: t1) ++ ext1) (((d2, w2) :: t2) ++ ext2)
        = (d1, w1 + w2) :: flatMerge (t1 ++ ext1) (t2 ++ ext2) := by
      rw [List.cons_append, List.cons_append, flatMerge, if_neg hlt, if_neg hgt,
        if_pos hnz]
    rw [hstep, List.append_assoc, List.singleton_append]
  | case4 result hroom d1 w1 t1 d2 w2 t2 hlt hgt hnz ih =>
    rw [mergeInner, if_pos hroom, if_neg hlt, if_neg hgt, if_neg hnz, ih]
    have hstep : flatMerge (((d1, w1) :: t1) ++ ext1) (((d2, w2) :: t2) ++ ext2)
        = flatMerge (t1 ++ ext1) (t2 ++ ext2) := by
      rw [List.cons_append, List.cons_append, flatMerge, if_neg hlt, if_neg hgt,
        if_neg hnz]
    rw [hstep]
  | case5 h1 h2 result hroom hmatch =>
    rw [mergeInner.eq_2 cap h1 h2 result hmatch, if_pos hroom]
  | case6 h1 h2 result hroom =>
    rw [mergeInner_of_full hroom]

theorem mergeInner_le (cap : Nat) (h1 h2 result : List (T × Int)) :
    (mergeInner cap h1 h2 result).2.1.length +
      (mergeInner cap h1 h2 result).2.2.length ≤ h1.length + h2.length := by
  induction h1, h2, result using @mergeInner.induct T _ cap with
  | case1 result hroom d1 w1 t1 d2 w2 t2 hlt ih =>
    rw [mergeInner, if_pos hroom, if_pos hlt]
    simp only [List.length_cons] at ih ⊢
    omega
  | case2 result hroom d1 w1 t1 d2 w2 t2 hlt hgt ih =>
    rw [mergeInner, if_pos hroom, if_neg hlt, if_pos hgt]
    simp only [List.length_cons] at ih ⊢
    omega
  | case3 result hroom d1 w1 t1 d2 w2 t2 hlt hgt hnz ih =>
    rw [mergeInner, if_pos hroom, if_neg hlt, if_neg hgt, if_pos hnz]
    simp only [List.length_cons] at ih ⊢
    omega
  | case4 result hroom d1 w1 t1 d2 w2 t2 hlt hgt hnz ih =>
    rw [mergeInner, if_pos hroom, if_neg hlt, if_neg hgt, if_neg hnz]
    simp only [List.length_cons] at ih ⊢
    omega
  | case5 h1 h2 result hroom hmatch =>
    rw [mergeInner.eq_2 cap h1 h2 result hmatch, if_pos hroom]
  | case6 h1 h2 result hroom =>
    rw [mergeInner_of_full hroom]

theorem mergeInner_lt {cap : Nat} {h1 h2 result : List (T × Int)}
    (hroom : result.length < cap) (h1ne : h1 ≠ []) (h2ne : h2 ≠ []) :
    (mergeInner cap h1 h2 result).2.1.length +
      (mergeInner cap h1 h2 result).2.2.length < h1.length + h2.length := by
  obtain ⟨⟨d1, w1⟩, t1, rfl⟩ := List.exists_cons_of_ne_nil h1ne
  obtain ⟨⟨d2, w2⟩, t2, rfl⟩ := List.exists_cons_of_ne_nil h2ne
  rw [mergeInner, if_pos hroom]
  by_cases hlt : d1 < d2
  · rw [if_pos hlt]
    have := mergeInner_le cap t1 ((d2, w2) :: t2) (result ++ [(d1, w1)])
    simp only [List.length_cons] at this ⊢
    omega
  · by_cases hgt : d2 < d1
    · rw [if_neg hlt, if_pos hgt]
      have := mergeInner_le cap ((d1, w1) :: t1) t2 (result ++ [(d2, w2)])
      simp only [List.length_cons] at this ⊢
      omega
    · by_cases hnz : w1 + w2 ≠ 0
      · rw [if_neg hlt, if_neg hgt, if_pos hnz]
        have := mergeInner_le cap t1 t2 (result ++ [(d1, w1 + w2)])
        simp only [List.length_cons] at this ⊢
        omega
      · rw [if_neg hlt, if_neg hgt, if_neg hnz]
        have := mergeInner_le cap t1 t2 result
        simp only [List.length_cons] at this ⊢
        omega

/-- The state of the outer loop of `merge_by` (src/merge_sort.rs:154-192):
current head chunks, remaining chunk queues of the two runs, the chunk being
filled, and the chunks already produced. -/
structure MergeSt (T : Type) where
  head1 : List (T × Int)
  list1 : List (List (T × Int))
  head2 : List (T × Int)
  list2 : List (List (T × Int))
  result : List (T × Int)
  output : List (List (T × Int))

/-- Elements remaining in a head chunk plus its queued chunks. -/
def elems (h : List (T × Int)) (l : List (List (T × Int))) : Nat :=
  h.length + (l.map List.length).sum

theorem elems_refill (hd : List (T × Int)) (l : List (List (T × Int))) :
    elems (if _h : hd = [] then l.headD [] else hd)
      (if _h : hd = [] then l.tail else l)
      = hd.length + (l.map List.length).sum := by
  by_cases he : hd = []
  · rw [dif_pos he, dif_pos he]
    subst he
    cases l <;> simp [elems]
  · rw [dif_neg he, dif_neg he]
    rfl

/-- The outer loop `while !head1.is_empty() && !head2.is_empty()` of
`merge_by` (src/merge_sort.rs:154-192): run the inner merge; if the chunk is
full, flush it to the output and start a new one (the source tests
`capacity == len`; filled chunks never exceed `cap`, so `cap ≤ len` is the
same test and keeps this function total); refill either exhausted head from
its queue.  The source fixes `cap = 1024 > 0`; the `cap ≠ 0` guard only
rules out the degenerate capacity at which the source itself would not
terminate. -/
def mergeLoop (cap : Nat) (s : MergeSt T) : MergeSt T :=
  if _hc : s.head1 ≠ [] ∧ s.head2 ≠ [] ∧ cap ≠ 0 then
    let m := mergeInner cap s.head1 s.head2 s.result
    let result2 := if cap ≤ m.1.length then [] else m.1
    let output2 := if cap ≤ m.1.length then s.output ++ [m.1] else s.output
    let h1b := if m.2.1 = [] then s.list1.headD [] else m.2.1
    let l1b := if m.2.1 = [] then s.list1.tail else s.list1
    let h2b := if m.2.2 = [] then s.list2.headD [] else m.2.2
    let l2b := if m.2.2 = [] then s.list2.tail else s.list2
    mergeLoop cap ⟨h1b, l1b, h2b, l2b, result2, output2⟩
  else s
termination_by 2 * (elems s.head1 s.list1 + elems s.head2 s.list2) +
  (if s.result.length < cap then 0 else 1)
decreasing_by
  simp only [elems_refill]
  have hpos : 0 < cap := Nat.pos_of_ne_zero _hc.2.2
  by_cases hroom : s.result.length < cap
  · have hlt := mergeInner_lt hroom _hc.1 _hc.2.1
    rw [if_pos hroom]
    by_cases hflush : cap ≤ (mergeInner cap s.head1 s.head2 s.result).1.length
    · rw [dif_pos hflush]
      simp only [List.length_nil, if_pos hpos, elems]
      omega
    · rw [dif_neg hflush, if_pos (Nat.lt_of_not_le hflush)]
      simp only [elems]
      omega
  · have heq := mergeInner_of_full hroom s.head1 s.head2
    have hle : cap ≤ s.result.length := Nat.le_of_not_lt hroom
    rw [if_neg hroom]
    simp only [heq]
    rw [dif_pos hle]
    simp only [List.length_nil, if_pos hpos, elems]
    omega

theorem dite_flush_flatten {α : Type} (c : Prop) [Decidable c]
    (out : List (List α)) (r : List α) :
    (if _h : c then out ++ [r] else out).flatten ++ (if _h : c then [] else r)
      = out.flatten ++ r := by
  by_cases h : c
  · rw [dif_pos h, dif_pos h]
    simp
  · rw [dif_neg h, dif_neg h]

theorem dite_refill_flatten {α : Type} [DecidableEq α] (hd : List α)
    (l : List (List α)) :
    (if _h : hd = [] then l.headD [] else hd) ++
        (if _h : hd = [] then l.tail else l).flatten
      = hd ++ l.flatten := by
  by_cases h : hd = []
  · rw [dif_pos h, dif_pos h, h]
    cases l <;> simp
  · rw [dif_neg h, dif_neg h]

theorem dite_refill_chunks {α : Type} [DecidableEq α] {hd : List α}
    {l : List (List α)} (hl : ∀ c ∈ l, c ≠ []) :
    ∀ c ∈ (if _h : hd = [] then l.tail else l), c ≠ [] := by
  by_cases h : hd = []
  · rw [dif_pos h]
    exact fun c hc => hl c (List.mem_of_mem_tail hc)
  · rw [dif_neg h]
    exact hl

theorem dite_refill_he {α : Type} [DecidableEq α] {hd : List α}
    {l : List (List α)} (hl : ∀ c ∈ l, c ≠ []) :
    (if _h : hd = [] then l.headD [] else hd) = [] →
      (if _h : hd = [] then l.tail else l) = [] := by
  by_cases h : hd = []
  · rw [dif_pos h, dif_pos h]
    cases l with
    | nil => exact fun _ => rfl
    | cons c rest => exact fun hcd => absurd hcd (hl c (List.mem_cons_self _ _))
  · rw [dif_neg h, dif_neg h]
    exact fun hh => absurd hh h

theorem dite_flush_chunks {α : Type} {c : Prop} [Decidable c]
    {out : List (List α)} {r : List α}
    (hout : ∀ ch ∈ out, ch ≠ []) (hr : c → r ≠ []) :
    ∀ ch ∈ (if _h : c then out ++ [r] else out), ch ≠ [] := by
  by_cases h : c
  · rw [dif_pos h]
    intro ch hch
    rcases List.mem_append.1 hch with hch | hch
    · exact hout ch hch
    · rw [List.mem_singleton.1 hch]
      exact hr h
  · rw [dif_neg h]
    exact hout

/-- The outer loop preserves the merged content and its bookkeeping
invariants: joining the produced chunks, the chunk in progress and the
reference merge of the remains reproduces the reference merge of what the
loop started from; queued chunks stay nonempty; an exhausted head means an
exhausted queue; at exit one of the two runs is exhausted. -/
theorem mergeLoop_spec (cap : Nat) (hcap : cap ≠ 0) :
    ∀ s : MergeSt T,
      (∀ c ∈ s.list1, c ≠ []) → (∀ c ∈ s.list2, c ≠ []) →
      (s.head1 = [] → s.list1 = []) → (s.head2 = [] → s.list2 = []) →
      (∀ c ∈ s.output, c ≠ []) →
      ((mergeLoop cap s).output.flatten ++ (mergeLoop cap s).result ++
          flatMerge ((mergeLoop cap s).head1 ++ (mergeLoop cap s).list1.flatten)
            ((mergeLoop cap s).head2 ++ (mergeLoop cap s).list2.flatten)
        = s.output.flatten ++ s.result ++
            flatMerge (s.head1 ++ s.list1.flatten) (s.head2 ++ s.list2.flatten))
      ∧ ((mergeLoop cap s).head1 = [] ∨ (mergeLoop cap s).head2 = [])
      ∧ ((mergeLoop cap s).head1 = [] → (mergeLoop cap s).list1 = [])
      ∧ ((mergeLoop cap s).head2 = [] → (mergeLoop cap s).list2 = [])
      ∧ (∀ c ∈ (mergeLoop cap s).list1, c ≠ [])
      ∧ (∀ c ∈ (mergeLoop cap s).list2, c ≠ [])
      ∧ (∀ c ∈ (mergeLoop cap s).output, c ≠ []) := by
  intro s
  induction s using @mergeLoop.induct T _ cap with
  | case1 x hc m result2 output2 h1b l1b h2b l2b ih =>
    intro hl1 hl2 he1 he2 hout
    have hr : cap ≤ (mergeInner cap x.head1 x.head2 x.result).1.length →
        (mergeInner cap x.head1 x.head2 x.result).1 ≠ [] := fun h =>
      List.ne_nil_of_length_pos (Nat.lt_of_lt_of_le (Nat.pos_of_ne_zero hc.2.2) h)
    obtain ⟨ihA, ihB, ihC, ihD, ihE, ihF, ihG⟩ :=
      ih (dite_refill_chunks hl1) (dite_refill_chunks hl2)
        (dite_refill_he hl1) (dite_refill_he hl2)
        (dite_flush_chunks hout hr)
    have hstep : mergeLoop cap x =
        mergeLoop cap ⟨h1b, l1b, h2b, l2b, result2, output2⟩ := by
      rw [mergeLoop, dif_pos hc]
      rfl
    rw [hstep]
    refine ⟨?_, ihB, ihC, ihD, ihE, ihF, ihG⟩
    rw [ihA]
    have hA : output2.flatten ++ result2 = x.output.flatten ++ m.1 :=
      dite_flush_flatten _ _ _
    have hB : h1b ++ l1b.flatten = m.2.1 ++ x.list1.flatten :=
      dite_refill_flatten _ _
    have hC : h2b ++ l2b.flatten = m.2.2 ++ x.list2.flatten :=
      dite_refill_flatten _ _
    have hm : m = mergeInner cap x.head1 x.head2 x.result := rfl
    rw [hA, hB, hC, hm, List.append_assoc, mergeInner_spec, ← List.append_assoc]
  | case2 x hnc =>
    intro hl1 hl2 he1 he2 hout
    rw [mergeLoop, dif_neg hnc]
    refine ⟨rfl, ?_, he1, he2, hl1, hl2, hout⟩
    by_cases h1 : x.head1 = []
    · exact Or.inl h1
    · by_cases h2 : x.head2 = []
      · exact Or.inr h2
      · exact absurd ⟨h1, h2, hcap⟩ hnc


theorem headD_append_tail_flatten {α : Type} (r : List (List α)) :
    r.headD [] ++ r.tail.flatten = r.flatten := by
  cases r <;> simp

theorem flatten_push_if {α : Type} [DecidableEq α] (out : List (List α)) (X : List α) :
    (if X ≠ [] then out ++ [X] else out).flatten = out.flatten ++ X := by
  by_cases h : X = []
  · simp [h]
  · simp [h]

theorem mem_push_if {α : Type} [DecidableEq α] {c X : List α} {out : List (List α)}
    (h : c ∈ (if X ≠ [] then out ++ [X] else out)) :
    c ∈ out ∨ (c = X ∧ X ≠ []) := by
  by_cases hX : X = []
  · rw [if_neg (not_not_intro hX)] at h
    exact Or.inl h
  · rw [if_pos hX] at h
    rcases List.mem_append.1 h with h | h
    · exact Or.inl h
    · exact Or.inr ⟨List.mem_singleton.1 h, hX⟩

/-- A run as `push` and `merge_by` produce them: either every chunk is
nonempty, or the run is the single empty chunk that `push` queues when a
nonempty batch consolidates away entirely. -/
def RunOK (r : List (List (T × Int))) : Prop :=
  (∀ c ∈ r, c ≠ []) ∨ r = [[]]

omit [LinearOrder T] in
theorem RunOK_tail {r : List (List (T × Int))} (h : RunOK r) :
    ∀ c ∈ r.tail, c ≠ [] := by
  rcases h with h | h
  · exact fun c hc => h c (List.mem_of_mem_tail hc)
  · rw [h]
    intro c hc
    cases hc

omit [LinearOrder T] in
theorem RunOK_he {r : List (List (T × Int))} (h : RunOK r) :
    r.headD [] = [] → r.tail = [] := by
  rcases h with h | h
  · cases r with
    | nil => exact fun _ => rfl
    | cons c rest =>
      exact fun hc => absurd hc (h c (List.mem_cons_self _ _))
  · rw [h]
    exact fun _ => rfl

/-- `merge_by` (src/merge_sort.rs:139-216): initialise the heads from the
front chunks of the two runs, run the merge loop, flush the partial chunk if
nonempty, then push the unconsumed head and remaining chunks of whichever
run is not exhausted (the loop exits with at least one side exhausted). -/
def merge_by (cap : Nat) (run1 run2 : List (List (T × Int))) :
    List (List (T × Int)) :=
  let t := mergeLoop cap
    ⟨run1.headD [], run1.tail, run2.headD [], run2.tail, [], []⟩
  let out1 := if t.result ≠ [] then t.output ++ [t.result] else t.output
  let out2 := if t.head1 ≠ [] then out1 ++ [t.head1] else out1
  let out3 := out2 ++ t.list1
  let out4 := if t.head2 ≠ [] then out3 ++ [t.head2] else out3
  out4 ++ t.list2

theorem merge_by_flatten {cap : Nat} (hcap : cap ≠ 0)
    {run1 run2 : List (List (T × Int))} (h1 : RunOK run1) (h2 : RunOK run2) :
    (merge_by cap run1 run2).flatten = flatMerge run1.flatten run2.flatten := by
  obtain ⟨sA, sB, sC, sD, sE, sF, sG⟩ :=
    mergeLoop_spec cap hcap
      ⟨run1.headD [], run1.tail, run2.headD [], run2.tail, [], []⟩
      (RunOK_tail h1) (RunOK_tail h2) (RunOK_he h1) (RunOK_he h2)
      (by intro c hc; cases hc)
  set t := mergeLoop cap
    ⟨run1.headD [], run1.tail, run2.headD [], run2.tail, [], []⟩ with ht
  simp only at sA
  rw [headD_append_tail_flatten, headD_append_tail_flatten] at sA
  have hfl : (merge_by cap run1 run2).flatten =
      t.output.flatten ++ t.result ++ t.head1 ++ t.list1.flatten ++
        t.head2 ++ t.list2.flatten := by
    rw [merge_by]
    rw [← ht]
    simp only [List.flatten_append, flatten_push_if]
  rw [hfl]
  have hmain : t.output.flatten ++ t.result ++ t.head1 ++ t.list1.flatten ++
      t.head2 ++ t.list2.flatten
      = t.output.flatten ++ t.result ++
        flatMerge (t.head1 ++ t.list1.flatten) (t.head2 ++ t.list2.flatten) := by
    rcases sB with hB | hB
    · rw [hB, sC hB]
      simp [flatMerge_nil_left, List.append_assoc]
    · rw [hB, sD hB]
      simp [flatMerge_nil_right, List.append_assoc]
  rw [hmain, sA]
  simp

theorem merge_by_chunks {cap : Nat} (hcap : cap ≠ 0)
    {run1 run2 : List (List (T × Int))} (h1 : RunOK run1) (h2 : RunOK run2) :
    ∀ c ∈ merge_by cap run1 run2, c ≠ [] := by
  obtain ⟨sA, sB, sC, sD, sE, sF, sG⟩ :=
    mergeLoop_spec cap hcap
      ⟨run1.headD [], run1.tail, run2.headD [], run2.tail, [], []⟩
      (RunOK_tail h1) (RunOK_tail h2) (RunOK_he h1) (RunOK_he h2)
      (by intro c hc; cases hc)
  set t := mergeLoop cap
    ⟨run1.headD [], run1.tail, run2.headD [], run2.tail, [], []⟩ with ht
  intro c hc
  rw [merge_by, ← ht] at hc
  rcases List.mem_append.1 hc with hc | hc
  · rcases mem_push_if hc with hc | hc
    · rcases List.mem_append.1 hc with hc | hc
      · rcases mem_push_if hc with hc | hc
        · rcases mem_push_if hc with hc | hc
          · exact sG c hc
          · rw [hc.1]
            exact hc.2
        · rw [hc.1]
          exact hc.2
      · exact sE c hc
    · rw [hc.1]
      exact hc.2
  · exact sF c hc

/-- The run-merging loop of `push` (src/merge_sort.rs:102-107): while the
queue holds at least two runs and the top run has at least half as many
chunks as the one beneath it, merge the top two runs.  The queue is a list
whose head is the top of the source's `Vec` (the most recently pushed
run). -/
def sorterLoop (cap : Nat) : List (List (List (T × Int))) → List (List (List (T × Int)))
  | r1 :: r2 :: rest =>
    if r2.length / 2 ≤ r1.length then sorterLoop cap (merge_by cap r1 r2 :: rest)
    else r1 :: r2 :: rest
  | q => q
termination_by q => q.length
decreasing_by all_goals simp

/-- `MergeSorter::push` (src/merge_sort.rs:82-109): a nonempty batch is
sorted and consolidated in place (the inline code is exactly `consolidate`
from src/lib.rs), queued as a single-chunk run, and the power-of-two
invariant is restored; an empty batch does nothing. -/
def sorterPush (cap : Nat) (q : List (List (List (T × Int))))
    (batch : List (T × Int)) : List (List (List (T × Int))) :=
  if batch = [] then q else sorterLoop cap ([consolidate batch] :: q)

/-- The final merging loop of `finish_into` (src/merge_sort.rs:125-130):
merge runs until at most one remains. -/
def finishLoop (cap : Nat) : List (List (List (T × Int))) → List (List (List (T × Int)))
  | r1 :: r2 :: rest => finishLoop cap (merge_by cap r1 r2 :: rest)
  | q => q
termination_by q => q.length
decreasing_by all_goals simp

/-- `MergeSorter::finish_into` (src/merge_sort.rs:124-135): merge all queued
runs into one and swap it into the (initially empty) target. -/
def finish_into (cap : Nat) (q : List (List (List (T × Int)))) :
    List (List (T × Int)) :=
  match finishLoop cap q with
  | [] => []
  | r :: _ => r

/-- Invariant of the sorter queue: every run has well-formed chunks and its
flattened content is strictly key-sorted with no zero weights. -/
def QOK (q : List (List (List (T × Int)))) : Prop :=
  ∀ r ∈ q, RunOK r ∧ r.flatten.Pairwise (fun x y => x.1 < y.1)
    ∧ ∀ p ∈ r.flatten, p.2 ≠ 0

/-- Total weight of datum `d` across all runs of the queue. -/
def qwOf (d : T) (q : List (List (List (T × Int)))) : Int :=
  (q.map (fun r => wOf d r.flatten)).sum

theorem qwOf_nil (d : T) : qwOf d ([] : List (List (List (T × Int)))) = 0 := rfl

theorem qwOf_cons (d : T) (r : List (List (T × Int)))
    (q : List (List (List (T × Int)))) :
    qwOf d (r :: q) = wOf d r.flatten + qwOf d q := by
  simp [qwOf]

/-- Merging two well-formed runs yields a well-formed run carrying the
summed content. -/
theorem merge_by_ok {cap : Nat} (hcap : cap ≠ 0)
    {r1 r2 : List (List (T × Int))}
    (h1 : RunOK r1 ∧ r1.flatten.Pairwise (fun x y => x.1 < y.1)
      ∧ ∀ p ∈ r1.flatten, p.2 ≠ 0)
    (h2 : RunOK r2 ∧ r2.flatten.Pairwise (fun x y => x.1 < y.1)
      ∧ ∀ p ∈ r2.flatten, p.2 ≠ 0) :
    (RunOK (merge_by cap r1 r2)
      ∧ (merge_by cap r1 r2).flatten.Pairwise (fun x y => x.1 < y.1)
      ∧ ∀ p ∈ (merge_by cap r1 r2).flatten, p.2 ≠ 0)
    ∧ ∀ d, wOf d (merge_by cap r1 r2).flatten
        = wOf d r1.flatten + wOf d r2.flatten := by
  have hfl := merge_by_flatten hcap h1.1 h2.1
  refine ⟨⟨Or.inl (merge_by_chunks hcap h1.1 h2.1), ?_, ?_⟩, ?_⟩
  · rw [hfl]
    exact flatMerge_pairwise h1.2.1 h2.2.1
  · rw [hfl]
    exact flatMerge_nonzero h1.2.2 h2.2.2
  · intro d
    rw [hfl, flatMerge_wOf]

theorem sorterLoop_spec {cap : Nat} (hcap : cap ≠ 0) :
    ∀ q : List (List (List (T × Int))), QOK q →
      QOK (sorterLoop cap q) ∧ ∀ d, qwOf d (sorterLoop cap q) = qwOf d q := by
  intro q
  induction q using @sorterLoop.induct T _ cap with
  | case1 r1 r2 rest hcond ih =>
    intro hq
    rw [sorterLoop, if_pos hcond]
    have h1 := hq r1 (List.mem_cons_self _ _)
    have h2 := hq r2 (List.mem_cons_of_mem _ (List.mem_cons_self _ _))
    obtain ⟨hmok, hmw⟩ := merge_by_ok hcap h1 h2
    have hq' : QOK (merge_by cap r1 r2 :: rest) := by
      intro r hr
      rcases List.mem_cons.1 hr with hr | hr
      · rw [hr]
        exact hmok
      · exact hq r (List.mem_cons_of_mem _ (List.mem_cons_of_mem _ hr))
    obtain ⟨ihq, ihw⟩ := ih hq'
    refine ⟨ihq, fun d => ?_⟩
    rw [ihw d, qwOf_cons, hmw d, qwOf_cons, qwOf_cons]
    ring
  | case2 r1 r2 rest hcond =>
    intro hq
    rw [sorterLoop, if_neg hcond]
    exact ⟨hq, fun d => rfl⟩
  | case3 q hmatch =>
    intro hq
    have : sorterLoop cap q = q := by
      rw [sorterLoop.eq_def]
      match q, hmatch with
      | [], _ => rfl
      | [r], _ => rfl
      | (r1 :: r2 :: rest), hmatch => exact absurd (hmatch r1 r2 rest rfl) not_false
    rw [this]
    exact ⟨hq, fun d => rfl⟩

theorem finishLoop_spec {cap : Nat} (hcap : cap ≠ 0) :
    ∀ q : List (List (List (T × Int))), QOK q →
      QOK (finishLoop cap q) ∧ (∀ d, qwOf d (finishLoop cap q) = qwOf d q)
        ∧ (finishLoop cap q).length ≤ 1 := by
  intro q
  induction q using @finishLoop.induct T _ cap with
  | case1 r1 r2 rest ih =>
    intro hq
    rw [finishLoop]
    have h1 := hq r1 (List.mem_cons_self _ _)
    have h2 := hq r2 (List.mem_cons_of_mem _ (List.mem_cons_self _ _))
    obtain ⟨hmok, hmw⟩ := merge_by_ok hcap h1 h2
    have hq' : QOK (merge_by cap r1 r2 :: rest) := by
      intro r hr
      rcases List.mem_cons.1 hr with hr | hr
      · rw [hr]
        exact hmok
      · exact hq r (List.mem_cons_of_mem _ (List.mem_cons_of_mem _ hr))
    obtain ⟨ihq, ihw, ihl⟩ := ih hq'
    refine ⟨ihq, fun d => ?_, ihl⟩
    rw [ihw d, qwOf_cons, hmw d, qwOf_cons, qwOf_cons]
    ring
  | case2 q hmatch =>
    intro hq
    have heq : finishLoop cap q = q := by
      rw [finishLoop.eq_def]
      match q, hmatch with
      | [], _ => rfl
      | [r], _ => rfl
      | (r1 :: r2 :: rest), hmatch => exact absurd (hmatch r1 r2 rest rfl) not_false
    rw [heq]
    refine ⟨hq, fun d => rfl, ?_⟩
    match q, hmatch with
    | [], _ => exact Nat.zero_le 1
    | [r], _ => exact le_refl 1
    | (r1 :: r2 :: rest), hmatch => exact absurd (hmatch r1 r2 rest rfl) not_false

theorem sorterPush_spec {cap : Nat} (hcap : cap ≠ 0)
    (q : List (List (List (T × Int)))) (batch : List (T × Int)) (hq : QOK q) :
    QOK (sorterPush cap q batch)
      ∧ ∀ d, qwOf d (sorterPush cap q batch) = qwOf d q + wOf d batch := by
  rw [sorterPush]
  by_cases hb : batch = []
  · rw [if_pos hb, hb]
    exact ⟨hq, fun d => by rw [wOf_nil, add_zero]⟩
  · rw [if_neg hb]
    have hnew : QOK ([consolidate batch] :: q) := by
      intro r hr
      rcases List.mem_cons.1 hr with hr | hr
      · rw [hr]
        have hflat : ([consolidate batch] : List (List (T × Int))).flatten
            = consolidate batch := by simp
        refine ⟨?_, ?_, ?_⟩
        · by_cases hc : consolidate batch = []
          · exact Or.inr (by rw [hc])
          · refine Or.inl ?_
            intro c hcm
            rw [List.mem_singleton.1 hcm]
            exact hc
        · rw [hflat]
          exact consolidate_pairwise batch
        · rw [hflat]
          exact fun p hp => consolidate_nonzero hp
      · exact hq r hr
    obtain ⟨hlq, hlw⟩ := sorterLoop_spec hcap _ hnew
    refine ⟨hlq, fun d => ?_⟩
    rw [hlw d, qwOf_cons]
    have hflat : ([consolidate batch] : List (List (T × Int))).flatten
        = consolidate batch := by simp
    rw [hflat, wOf_consolidate]
    ring

/-- The whole sorter run: push every batch into a fresh `MergeSorter`, then
`finish_into` an empty target.  The chunk capacity is the source's 1024. -/
def mergeSorterResult (batches : List (List (T × Int))) : List (List (T × Int)) :=
  finish_into chunkCap (batches.foldl (sorterPush chunkCap) [])

theorem foldl_sorterPush_spec {cap : Nat} (hcap : cap ≠ 0) :
    ∀ (batches : List (List (T × Int))) (q : List (List (List (T × Int)))),
      QOK q →
      QOK (batches.foldl (sorterPush cap) q)
        ∧ ∀ d, qwOf d (batches.foldl (sorterPush cap) q)
            = qwOf d q + wOf d batches.flatten := by
  intro batches
  induction batches with
  | nil =>
    intro q hq
    exact ⟨hq, fun d => by simp [wOf_nil]⟩
  | cons b rest ih =>
    intro q hq
    obtain ⟨hpq, hpw⟩ := sorterPush_spec hcap q b hq
    obtain ⟨ihq, ihw⟩ := ih _ hpq
    refine ⟨ihq, fun d => ?_⟩
    rw [List.foldl_cons] at *
    rw [ihw d, hpw d]
    simp only [List.flatten_cons, wOf_append]
    ring

/-- **C8.** Pushing any sequence of batches into a fresh `MergeSorter` and
then calling `finish_into` on an empty target yields chunks whose
concatenation is exactly `consolidate` of the concatenation of all the
batches: the power-of-two merge engine computes plain sort-and-consolidate. -/
theorem mergeSorter_refines (batches : List (List (T × Int))) :
    (mergeSorterResult batches).flatten = consolidate batches.flatten := by
  have hcap : chunkCap ≠ 0 := by decide
  obtain ⟨hq, hw⟩ := foldl_sorterPush_spec hcap batches [] (by intro r hr; cases hr)
  obtain ⟨hfq, hfw, hfl⟩ := finishLoop_spec hcap _ hq
  rw [mergeSorterResult, finish_into]
  rcases hres : finishLoop chunkCap (batches.foldl (sorterPush chunkCap) []) with _ | ⟨r, rest⟩
  · -- empty queue: every datum has total weight zero, so the consolidated
    -- input must be empty as well
    have hzero : ∀ d, wOf d batches.flatten = 0 := by
      intro d
      have := hfw d
      rw [hres, qwOf_nil, hw d, qwOf_nil, zero_add] at this
      exact this.symm
    have : consolidate batches.flatten = [] := by
      refine consolidated_canonical _ _ (consolidate_pairwise _) List.Pairwise.nil
        (fun p hp => consolidate_nonzero hp) (fun p hp => absurd hp (List.not_mem_nil p))
        (fun d => ?_)
      rw [wOf_consolidate, hzero d, wOf_nil]
    rw [this]
    rfl
  · -- single remaining run: its content is canonical
    have hrest : rest = [] := by
      rw [hres] at hfl
      simp at hfl
      rw [hfl]
    subst hrest
    have hrok := hfq r (by rw [hres]; exact List.mem_cons_self _ _)
    have hwr : ∀ d, wOf d r.flatten = wOf d batches.flatten := by
      intro d
      have := hfw d
      rw [hres, qwOf_cons, qwOf_nil, add_zero, hw d, qwOf_nil, zero_add] at this
      exact this
    simp only
    refine consolidated_canonical _ _ hrok.2.1 (consolidate_pairwise _)
      hrok.2.2 (fun p hp => consolidate_nonzero hp) (fun d => ?_)
    rw [wOf_consolidate, hwr d]

end WPINQ
